import Mathlib

/-!
Shallow embedding of the Etebase server membership router
(`etebase_server/fastapi/routers/member.py`) together with the username
normalization of `etebase_server/myauth/models.py`.

Collaborators the router calls whose code lives outside the embedded sources
(`filter_by_stoken_and_limit` from the stoken handler, `get_object_or_404`,
the permission dependencies `PERMISSIONS_READ` / `PERMISSIONS_READWRITE`,
`verify_collection_admin`, `CollectionMember.revoke`, and the Stoken ledger
`Stoken.objects.create`) are modelled from the specification; each such
definition carries a doc comment starting with `Modelled from the spec:`.

Machine representation choices: Python strings are modelled as lists of
characters, stokens as natural numbers (the ledger counter doubles as the
externally visible uid), and fallible endpoints return `Except ApiError`.
-/

namespace Etebase

/-- Usernames are modelled as lists of characters (Python `str`). -/
abbrev Username := List Char

/-- Lowercasing of one character, the ASCII case fold used by Python
`str.lower` in `User.normalize_username` and by the case-insensitive
`__iexact` lookup. -/
def lowerChar (c : Char) : Char :=
  if 65 ≤ c.toNat ∧ c.toNat ≤ 90 then Char.ofNat (c.toNat + 32) else c

/-- Lowercasing of a whole username. -/
def strLower (s : Username) : Username := s.map lowerChar

/-- Django `__iexact` lookup predicate: case-insensitive equality of
usernames. -/
def iexact (a b : Username) : Bool := strLower a == strLower b

/-- Access levels of a collection member. The spec orders them by privilege:
ReadOnly < ReadWrite < Admin. -/
inductive AccessLevels
  | readOnly
  | readWrite
  | admin
deriving DecidableEq, Repr

/-- Numeric privilege rank of an access level (ReadOnly lowest). -/
def AccessLevels.priv : AccessLevels → Nat
  | .readOnly => 0
  | .readWrite => 1
  | .admin => 2

/-- User identity: immutable id plus the stored username
(`etebase_server/myauth/models.py`). -/
structure UserRec where
  id : Nat
  username : Username
deriving DecidableEq, Repr

/-- Collection header: only the scoping key and the owner matter for the
membership router. -/
structure Collection where
  id : Nat
  ownerId : Nat
deriving DecidableEq, Repr

/-- Membership record tying one user to one collection
(`models.CollectionMember`): access level plus the stoken stamped at the most
recent mutation of this record. -/
structure CollectionMember where
  id : Nat
  user : UserRec
  collectionId : Nat
  accessLevel : AccessLevels
  stoken : Nat
deriving DecidableEq, Repr

/-- Server state visible to the membership router: the membership table and
the Stoken ledger counter (the next stoken value to be issued). -/
structure ServerState where
  members : List CollectionMember
  ledger : Nat
deriving DecidableEq, Repr

/-- Terminal user-visible error outcomes of the membership endpoints. -/
inductive ApiError
  | notFound
  | forbidden
deriving DecidableEq, Repr

/-- Modelled from the spec: the capability check `authorize(user, collection,
requiredLevel)` succeeds iff the caller has an active membership with
`accessLevel >= requiredLevel`, or is the collection owner (implicitly
Admin). -/
def authorize (st : ServerState) (userId : Nat) (col : Collection)
    (required : AccessLevels) : Bool :=
  col.ownerId == userId ||
    st.members.any (fun m =>
      m.collectionId == col.id && m.user.id == userId &&
        decide (required.priv ≤ m.accessLevel.priv))

/-- Modelled from the spec: the separate "is collection admin" check layered
in front of the generic permission gates of the member router. -/
def verify_collection_admin (st : ServerState) (userId : Nat)
    (col : Collection) : Bool :=
  authorize st userId col .admin

/-- Modelled from the spec: `get_object_or_404` returns the first record of
the queryset matching the lookup, or the NotFound outcome; an absent target
is indistinguishable from a nonexistent one. -/
def get_object_or_404 (qs : List CollectionMember)
    (p : CollectionMember → Bool) : Except ApiError CollectionMember :=
  match qs.find? p with
  | some m => .ok m
  | none => .error .notFound

/-- Embeds `get_queryset`: the membership table filtered to the given
collection. -/
def get_queryset (st : ServerState) (col : Collection) :
    List CollectionMember :=
  st.members.filter (fun m => m.collectionId == col.id)

/-- Embeds `get_member`: lookup by `user__username__iexact` inside the
collection-scoped queryset, 404 when absent. -/
def get_member (st : ServerState) (col : Collection) (username : Username) :
    Except ApiError CollectionMember :=
  get_object_or_404 (get_queryset st col)
    (fun m => iexact m.user.username username)

/-- Embeds the input schema `CollectionMemberModifyAccessLevelIn`: the only
accepted field is `accessLevel`. -/
structure CollectionMemberModifyAccessLevelIn where
  accessLevel : AccessLevels
deriving DecidableEq, Repr

/-- Embeds the output schema `CollectionMemberOut`. -/
structure CollectionMemberOut where
  username : Username
  accessLevel : AccessLevels
deriving DecidableEq, Repr

/-- Embeds `CollectionMemberOut.from_orm`. -/
def CollectionMemberOut.from_orm (obj : CollectionMember) :
    CollectionMemberOut :=
  { username := obj.user.username, accessLevel := obj.accessLevel }

/-- Embeds the response schema `MemberListResponse`. -/
structure MemberListResponse where
  data : List CollectionMemberOut
  iterator : Option Nat
  done : Bool
deriving DecidableEq, Repr

/-- Insertion step of the stable ordering by record id. -/
def insertById (m : CollectionMember) :
    List CollectionMember → List CollectionMember
  | [] => [m]
  | x :: xs => if m.id ≤ x.id then m :: x :: xs else x :: insertById m xs

/-- Embeds `queryset.order_by("id")`: sort the queryset by record id. -/
def order_by_id : List CollectionMember → List CollectionMember
  | [] => []
  | x :: xs => insertById x (order_by_id xs)

/-- Cursor filter of the sync protocol: keep records with
`record.stoken > cursor`, a null cursor meaning "from the beginning". -/
def after_cursor (cursor : Option Nat) (m : CollectionMember) : Bool :=
  match cursor with
  | none => true
  | some c => decide (c < m.stoken)

/-- Modelled from the spec: the page of records returned by the sync cursor
protocol, in queryset order, bounded by the caller limit clamped to the
configured cap. -/
def page_items (cursor : Option Nat) (limit cap : Nat)
    (qs : List CollectionMember) : List CollectionMember :=
  (qs.filter (after_cursor cursor)).take (min limit cap)

/-- Modelled from the spec: the completion flag, true iff the backlog after
the cursor fits inside the clamped limit. -/
def page_done (cursor : Option Nat) (limit cap : Nat)
    (qs : List CollectionMember) : Bool :=
  decide ((qs.filter (after_cursor cursor)).length ≤ min limit cap)

/-- Modelled from the spec: the new cursor is the stoken of the last record
of the page when the page is non-empty, else the supplied cursor unchanged. -/
def page_cursor (cursor : Option Nat) (result : List CollectionMember) :
    Option Nat :=
  match result.getLast? with
  | some last => some last.stoken
  | none => cursor

/-- Modelled from the spec: `filter_by_stoken_and_limit` from the stoken
handler, returning the page, the new cursor and the completion flag. The
configured cap parameter realizes the required clamp of the caller limit. -/
def filter_by_stoken_and_limit (cursor : Option Nat) (limit cap : Nat)
    (qs : List CollectionMember) :
    List CollectionMember × Option Nat × Bool :=
  (page_items cursor limit cap qs,
   page_cursor cursor (page_items cursor limit cap qs),
   page_done cursor limit cap qs)

/-- Embeds `member_list`. The FastAPI dependencies are checked first:
`verify_collection_admin`, then the generic `PERMISSIONS_READ` gate. -/
def member_list (st : ServerState) (caller : UserRec) (col : Collection)
    (iterator : Option Nat) (limit cap : Nat) :
    Except ApiError MemberListResponse :=
  if verify_collection_admin st caller.id col = false then .error .forbidden
  else if authorize st caller.id col .readOnly = false then .error .forbidden
  else
    let queryset := order_by_id (get_queryset st col)
    let result := filter_by_stoken_and_limit iterator limit cap queryset
    .ok { data := result.1.map CollectionMemberOut.from_orm,
          iterator := result.2.1,
          done := result.2.2 }

/-- Modelled from the spec: `CollectionMember.revoke` deletes the membership
record outright (hard delete, no tombstone). The collection-level stoken bump
is performed by an external collaborator and is outside the embedded state. -/
def revoke (st : ServerState) (obj : CollectionMember) : ServerState :=
  { st with members := st.members.filter (fun m => !(m.id == obj.id)) }

/-- Embeds `member_delete`: gated by `verify_collection_admin` and
`PERMISSIONS_READWRITE`, then revokes the member resolved by `get_member`. -/
def member_delete (st : ServerState) (caller : UserRec) (col : Collection)
    (username : Username) : Except ApiError ServerState :=
  if verify_collection_admin st caller.id col = false then .error .forbidden
  else if authorize st caller.id col .readWrite = false then .error .forbidden
  else
    match get_member st col username with
    | .error e => .error e
    | .ok obj => .ok (revoke st obj)

/-- Embeds `member_patch`: gated by `verify_collection_admin` and
`PERMISSIONS_READWRITE`; inside one transaction, when the requested level
differs from the current one, a fresh stoken is minted from the ledger and
stamped on the record together with the new access level; otherwise the call
is a no-op. -/
def member_patch (st : ServerState) (caller : UserRec) (col : Collection)
    (username : Username) (data : CollectionMemberModifyAccessLevelIn) :
    Except ApiError ServerState :=
  if verify_collection_admin st caller.id col = false then .error .forbidden
  else if authorize st caller.id col .readWrite = false then .error .forbidden
  else
    match get_member st col username with
    | .error e => .error e
    | .ok inst =>
      if inst.accessLevel ≠ data.accessLevel then
        .ok { st with
              members := st.members.map (fun m =>
                if m.id == inst.id then
                  { m with stoken := st.ledger,
                           accessLevel := data.accessLevel }
                else m),
              ledger := st.ledger + 1 }
      else .ok st

/-- Embeds `member_leave`: gated by `PERMISSIONS_READ` only (no collection
admin check); resolves the caller's own membership in the collection with
`get_object_or_404(collection.members, user=user)` and revokes it. -/
def member_leave (st : ServerState) (caller : UserRec) (col : Collection) :
    Except ApiError ServerState :=
  if authorize st caller.id col .readOnly = false then .error .forbidden
  else
    match get_object_or_404 (get_queryset st col)
        (fun m => m.user.id == caller.id) with
    | .error e => .error e
    | .ok obj => .ok (revoke st obj)

/-- Embeds `User.normalize_username`: the username is lowercased at creation
(the unicode normalization performed by the Django superclass is the identity
on the modelled character data). -/
def normalize_username (username : Username) : Username :=
  strLower username

/-- Embeds `UserManager.get_by_natural_key`: user lookup by
`username__iexact`. -/
def get_by_natural_key (users : List UserRec) (username : Username) :
    Option UserRec :=
  users.find? (fun u => iexact u.username username)

/-- Comparison of an issued cursor against the supplied one: a null supplied
cursor is below everything, and a returned null only matches a null input. -/
def cursorGe : Option Nat → Option Nat → Bool
  | _, none => true
  | none, some _ => false
  | some n, some c => decide (c ≤ n)

end Etebase

namespace Etebase

theorem toNat_ofNat_valid (n : Nat) (h : n.isValidChar) :
    (Char.ofNat n).toNat = n := by
  unfold Char.ofNat
  simp only [Char.ofNatAux, Char.toNat, h, dif_pos]
  rfl

theorem lowerChar_idem (c : Char) : lowerChar (lowerChar c) = lowerChar c := by
  by_cases h : 65 ≤ c.toNat ∧ c.toNat ≤ 90
  · have h1 : lowerChar c = Char.ofNat (c.toNat + 32) := if_pos h
    have hv : (c.toNat + 32).isValidChar := Or.inl (by omega)
    have ht : (lowerChar c).toNat = c.toNat + 32 := by
      rw [h1]
      exact toNat_ofNat_valid _ hv
    have h2 : ¬(65 ≤ (lowerChar c).toNat ∧ (lowerChar c).toNat ≤ 90) := by
      rw [ht]
      omega
    exact if_neg h2
  · have h1 : lowerChar c = c := if_neg h
    rw [h1]
    exact h1

theorem strLower_idem (s : Username) : strLower (strLower s) = strLower s := by
  unfold strLower
  rw [List.map_map]
  simp [Function.comp_def, lowerChar_idem]

theorem mem_insertById (a m : CollectionMember) (l : List CollectionMember) :
    a ∈ insertById m l ↔ a = m ∨ a ∈ l := by
  induction l with
  | nil => simp [insertById]
  | cons x xs ih =>
    unfold insertById
    by_cases h : m.id ≤ x.id
    · simp [h]
    · simp only [h, if_false, List.mem_cons, ih]
      tauto

theorem mem_order_by_id (a : CollectionMember) (l : List CollectionMember) :
    a ∈ order_by_id l ↔ a ∈ l := by
  induction l with
  | nil => simp [order_by_id]
  | cons x xs ih => simp [order_by_id, mem_insertById, ih]

theorem mem_of_getLast_eq_some {α : Type} {l : List α} {a : α}
    (h : l.getLast? = some a) : a ∈ l := by
  obtain ⟨hne, rfl⟩ := List.mem_getLast?_eq_getLast (l := l) (x := a) h
  exact List.getLast_mem hne

theorem cursorGe_refl (c : Option Nat) : cursorGe c c = true := by
  cases c with
  | none => rfl
  | some n => simp [cursorGe]

theorem mem_page_items {cursor : Option Nat} {limit cap : Nat}
    {qs : List CollectionMember} {m : CollectionMember}
    (h : m ∈ page_items cursor limit cap qs) :
    m ∈ qs ∧ after_cursor cursor m = true := by
  unfold page_items at h
  exact List.mem_filter.mp (List.take_subset _ _ h)

theorem authorize_mono (st : ServerState) (uid : Nat) (col : Collection)
    {l₁ l₂ : AccessLevels} (h : l₁.priv ≤ l₂.priv)
    (ha : authorize st uid col l₂ = true) : authorize st uid col l₁ = true := by
  simp only [authorize, Bool.or_eq_true, List.any_eq_true, Bool.and_eq_true,
    decide_eq_true_eq, beq_iff_eq] at ha ⊢
  rcases ha with h1 | ⟨m, hm, ⟨hcol, huser⟩, hlev⟩
  · exact Or.inl h1
  · exact Or.inr ⟨m, hm, ⟨hcol, huser⟩, le_trans h hlev⟩

/-- Claim C1: a member listing call never regresses the cursor; the returned
iterator is at least the supplied cursor, and when the returned page is empty
the iterator equals the supplied cursor unchanged. -/
theorem member_list_cursor_no_regress (st : ServerState) (caller : UserRec)
    (col : Collection) (iterator : Option Nat) (limit cap : Nat)
    (resp : MemberListResponse)
    (h : member_list st caller col iterator limit cap = .ok resp) :
    cursorGe resp.iterator iterator = true ∧
      (resp.data = [] → resp.iterator = iterator) := by
  simp only [member_list, filter_by_stoken_and_limit] at h
  split_ifs at h
  injection h with h
  subst h
  simp only
  cases hres : (page_items iterator limit cap
      (order_by_id (get_queryset st col))).getLast? with
  | none =>
    have hempty := List.getLast?_eq_none_iff.mp hres
    constructor
    · show cursorGe (page_cursor iterator _) iterator = true
      rw [page_cursor, hres]
      exact cursorGe_refl iterator
    · intro _
      show page_cursor iterator _ = iterator
      rw [page_cursor, hres]
  | some last =>
    have hmem : last ∈ page_items iterator limit cap
        (order_by_id (get_queryset st col)) := mem_of_getLast_eq_some hres
    have hcur : after_cursor iterator last = true := (mem_page_items hmem).2
    constructor
    · show cursorGe (page_cursor iterator _) iterator = true
      rw [page_cursor, hres]
      cases iterator with
      | none => rfl
      | some c =>
        simp only [after_cursor, decide_eq_true_eq] at hcur
        simp [cursorGe, Nat.le_of_lt hcur]
    · intro hdata
      rw [List.map_eq_nil_iff] at hdata
      rw [hdata] at hres
      exact absurd hres (by simp)

/-- Claim C8: the number of items in any successful member listing response is
bounded by the configured cap, regardless of the caller-supplied limit. -/
theorem member_list_page_bounded (st : ServerState) (caller : UserRec)
    (col : Collection) (iterator : Option Nat) (limit cap : Nat)
    (resp : MemberListResponse)
    (h : member_list st caller col iterator limit cap = .ok resp) :
    resp.data.length ≤ cap := by
  simp only [member_list, filter_by_stoken_and_limit] at h
  split_ifs at h
  injection h with h
  subst h
  simp only [List.length_map, page_items, List.length_take]
  omega

def exAlice : UserRec := { id := 1, username := ['a'] }

def exBob : UserRec := { id := 2, username := ['b', 'o', 'b'] }

def exCol : Collection := { id := 10, ownerId := 1 }

def exMemA : CollectionMember :=
  { id := 1, user := exAlice, collectionId := 10, accessLevel := .admin,
    stoken := 1 }

def exMemB : CollectionMember :=
  { id := 2, user := exBob, collectionId := 10, accessLevel := .readWrite,
    stoken := 2 }

def exState : ServerState := { members := [exMemA, exMemB], ledger := 5 }

/-- Concrete instantiation of the cursor non-regression theorem. -/
theorem member_list_cursor_no_regress_witness :
    cursorGe (some 2) (some 1) = true :=
  (member_list_cursor_no_regress exState exAlice exCol (some 1) 1 50
    { data := [{ username := ['b', 'o', 'b'], accessLevel := .readWrite }],
      iterator := some 2, done := true } (by rfl)).1

/-- Concrete instantiation of the page bound theorem. -/
theorem member_list_page_bounded_witness :
    ([({ username := ['a'], accessLevel := .admin } : CollectionMemberOut),
      { username := ['b', 'o', 'b'], accessLevel := .readWrite }] :
        List CollectionMemberOut).length ≤ 3 :=
  member_list_page_bounded exState exAlice exCol none 1000 3
    { data := [{ username := ['a'], accessLevel := .admin },
               { username := ['b', 'o', 'b'], accessLevel := .readWrite }],
      iterator := some 2, done := true } (by rfl)

end Etebase

namespace Etebase

theorem get_member_mem {st : ServerState} {col : Collection}
    {username : Username} {inst : CollectionMember}
    (hm : get_member st col username = .ok inst) :
    inst ∈ st.members ∧ inst.collectionId = col.id ∧
      iexact inst.user.username username = true := by
  unfold get_member get_object_or_404 at hm
  cases hfind : (get_queryset st col).find?
      (fun m => iexact m.user.username username) with
  | none =>
    rw [hfind] at hm
    exact Except.noConfusion hm
  | some m =>
    rw [hfind] at hm
    injection hm with hm
    subst hm
    have h1 := List.mem_of_find?_eq_some hfind
    have h2 := List.find?_some hfind
    unfold get_queryset at h1
    have h3 := List.mem_filter.mp h1
    exact ⟨h3.1, by simpa using h3.2, h2⟩

theorem forall₂_map_self {α : Type} (f : α → α) (R : α → α → Prop)
    (l : List α) (h : ∀ a ∈ l, R (f a) a) : List.Forall₂ R (l.map f) l := by
  induction l with
  | nil => exact List.Forall₂.nil
  | cons x xs ih =>
    exact List.Forall₂.cons (h x (by simp))
      (ih fun a ha => h a (by simp [ha]))

/-- Claim C2: setting the access level to the member's current level is a
successful no-op: the state (hence the record's stoken and the ledger) is
unchanged, and performing the call twice in a row also leaves the state
identical. -/
theorem member_patch_noop (st : ServerState) (caller : UserRec)
    (col : Collection) (username : Username) (inst : CollectionMember)
    (data : CollectionMemberModifyAccessLevelIn)
    (hadm : verify_collection_admin st caller.id col = true)
    (hrw : authorize st caller.id col .readWrite = true)
    (hm : get_member st col username = .ok inst)
    (heq : inst.accessLevel = data.accessLevel) :
    member_patch st caller col username data = .ok st ∧
      (member_patch st caller col username data).bind
        (fun s => member_patch s caller col username data) = .ok st := by
  have h1 : member_patch st caller col username data = .ok st := by
    unfold member_patch
    rw [hadm, hrw, hm]
    simp [heq]
  refine ⟨h1, ?_⟩
  rw [h1]
  simpa [Except.bind] using h1

/-- Claim C6: when the requested level differs from the record's current one,
member_patch mints a fresh stoken from the ledger, stamps it on the record and
persists the new level as one atomic unit: in the resulting state the ledger
advanced by exactly one, the targeted record carries the new level paired with
the newly minted stoken, and every record either carries that paired update or
is an unchanged record of the original state. -/
theorem member_patch_mints (st : ServerState) (caller : UserRec)
    (col : Collection) (username : Username) (inst : CollectionMember)
    (data : CollectionMemberModifyAccessLevelIn) (st' : ServerState)
    (hm : get_member st col username = .ok inst)
    (hne : inst.accessLevel ≠ data.accessLevel)
    (h : member_patch st caller col username data = .ok st') :
    st'.ledger = st.ledger + 1 ∧
      ({ inst with stoken := st.ledger,
                   accessLevel := data.accessLevel } ∈ st'.members) ∧
      (∀ m ∈ st'.members, m.id = inst.id →
        m.accessLevel = data.accessLevel ∧ m.stoken = st.ledger) ∧
      (∀ m ∈ st'.members,
        (m.accessLevel = data.accessLevel ∧ m.stoken = st.ledger) ∨
          m ∈ st.members) := by
  unfold member_patch at h
  split_ifs at h
  simp only [hm] at h
  rw [if_pos hne] at h
  injection h with h
  subst h
  refine ⟨rfl, ?_, ?_, ?_⟩
  · have hinst : inst ∈ st.members := (get_member_mem hm).1
    refine List.mem_map.mpr ⟨inst, hinst, ?_⟩
    simp
  · intro m hmem hid
    obtain ⟨m₀, hm₀, hfm⟩ := List.mem_map.mp hmem
    by_cases hcase : (m₀.id == inst.id) = true
    · rw [if_pos hcase] at hfm
      subst hfm
      exact ⟨rfl, rfl⟩
    · rw [if_neg hcase] at hfm
      subst hfm
      exact absurd (beq_iff_eq.mpr hid) hcase
  · intro m hmem
    obtain ⟨m₀, hm₀, hfm⟩ := List.mem_map.mp hmem
    by_cases hcase : (m₀.id == inst.id) = true
    · rw [if_pos hcase] at hfm
      subst hfm
      exact Or.inl ⟨rfl, rfl⟩
    · rw [if_neg hcase] at hfm
      subst hfm
      exact Or.inr hm₀

/-- Claim C10: member_patch can modify only the accessLevel and stoken fields
of the record it targets (the one resolved by get_member): the member table
keeps its length, position by position every record keeps its id, user and
collection, every record whose id differs from the targeted record's id is
fully unchanged, and the targeted record is either unchanged or exactly the
access-level / stoken restamping of the old record. -/
theorem member_patch_frame (st : ServerState) (caller : UserRec)
    (col : Collection) (username : Username)
    (data : CollectionMemberModifyAccessLevelIn) (inst : CollectionMember)
    (st' : ServerState)
    (hm : get_member st col username = .ok inst)
    (h : member_patch st caller col username data = .ok st') :
    st'.members.length = st.members.length ∧
      List.Forall₂ (fun n o : CollectionMember =>
        (n.id = o.id ∧ n.user = o.user ∧ n.collectionId = o.collectionId) ∧
          (o.id ≠ inst.id → n = o) ∧
          (n = o ∨ n = { o with stoken := st.ledger,
                                accessLevel := data.accessLevel }))
        st'.members st.members := by
  unfold member_patch at h
  split_ifs at h
  simp only [hm] at h
  by_cases hne : inst.accessLevel ≠ data.accessLevel
  · rw [if_pos hne] at h
    injection h with h
    subst h
    constructor
    · exact List.length_map _ _
    · refine forall₂_map_self _ _ _ ?_
      intro a _
      by_cases hcase : (a.id == inst.id) = true
      · rw [if_pos hcase]
        refine ⟨⟨rfl, rfl, rfl⟩, ?_, Or.inr rfl⟩
        intro hne2
        exact absurd (beq_iff_eq.mp hcase) hne2
      · rw [if_neg hcase]
        exact ⟨⟨rfl, rfl, rfl⟩, fun _ => rfl, Or.inl rfl⟩
  · rw [if_neg hne] at h
    injection h with h
    subst h
    constructor
    · rfl
    · refine List.forall₂_same.mpr ?_
      intro a _
      exact ⟨⟨rfl, rfl, rfl⟩, fun _ => rfl, Or.inl rfl⟩

def exCarol : UserRec := { id := 3, username := ['c'] }

def exStatePatched : ServerState :=
  { members := [exMemA,
      { id := 2, user := exBob, collectionId := 10,
        accessLevel := .readOnly, stoken := 5 }],
    ledger := 6 }

/-- Concrete instantiation of the no-op patch theorem. -/
theorem member_patch_noop_witness :
    member_patch exState exAlice exCol ['b', 'o', 'b']
        { accessLevel := .readWrite } = .ok exState ∧
      (member_patch exState exAlice exCol ['b', 'o', 'b']
          { accessLevel := .readWrite }).bind
        (fun s => member_patch s exAlice exCol ['b', 'o', 'b']
          { accessLevel := .readWrite }) = .ok exState :=
  member_patch_noop exState exAlice exCol ['b', 'o', 'b'] exMemB
    { accessLevel := .readWrite } (by rfl) (by rfl) (by rfl) (by rfl)

/-- Concrete instantiation of the minting patch theorem: the binder-free
conclusions at a concrete state. -/
theorem member_patch_mints_witness :
    exStatePatched.ledger = exState.ledger + 1 ∧
      ({ exMemB with stoken := exState.ledger,
                     accessLevel := AccessLevels.readOnly } ∈
        exStatePatched.members) :=
  ⟨(member_patch_mints exState exAlice exCol ['b', 'o', 'b'] exMemB
      { accessLevel := .readOnly } exStatePatched (by rfl) (by decide)
      (by rfl)).1,
   (member_patch_mints exState exAlice exCol ['b', 'o', 'b'] exMemB
      { accessLevel := .readOnly } exStatePatched (by rfl) (by decide)
      (by rfl)).2.1⟩

/-- Concrete instantiation of the frame theorem for member_patch. -/
theorem member_patch_frame_witness :
    exStatePatched.members.length = exState.members.length ∧
      List.Forall₂ (fun n o : CollectionMember =>
        (n.id = o.id ∧ n.user = o.user ∧ n.collectionId = o.collectionId) ∧
          (o.id ≠ exMemB.id → n = o) ∧
          (n = o ∨ n = { o with stoken := exState.ledger,
                                accessLevel := AccessLevels.readOnly }))
        exStatePatched.members exState.members :=
  member_patch_frame exState exAlice exCol ['b', 'o', 'b']
    { accessLevel := .readOnly } exMemB exStatePatched (by rfl) (by rfl)

end Etebase

namespace Etebase

theorem admin_false_of_authorize_false (st : ServerState) (uid : Nat)
    (col : Collection) (l : AccessLevels)
    (hl : authorize st uid col l = false) :
    verify_collection_admin st uid col = false := by
  by_contra hcon
  have h2 : verify_collection_admin st uid col = true :=
    (Bool.not_eq_false _).mp hcon
  unfold verify_collection_admin at h2
  have h3 : authorize st uid col l = true :=
    authorize_mono st uid col (by cases l <;> simp [AccessLevels.priv]) h2
  rw [h3] at hl
  exact Bool.noConfusion hl

/-- Claim C4: every membership operation enforces its authorization gate:
listing members requires the collection-admin check on top of the ReadOnly
gate, and changing a member's level or removing a member requires the
collection-admin check together with the ReadWrite gate; a caller lacking the
required level receives the Forbidden outcome. -/
theorem member_gates_forbidden (st : ServerState) (caller : UserRec)
    (col : Collection) (username : Username)
    (data : CollectionMemberModifyAccessLevelIn) (iterator : Option Nat)
    (limit cap : Nat) :
    (verify_collection_admin st caller.id col = false →
      member_list st caller col iterator limit cap = .error .forbidden ∧
        member_patch st caller col username data = .error .forbidden ∧
        member_delete st caller col username = .error .forbidden) ∧
    (authorize st caller.id col .readWrite = false →
      member_patch st caller col username data = .error .forbidden ∧
        member_delete st caller col username = .error .forbidden) ∧
    (authorize st caller.id col .readOnly = false →
      member_list st caller col iterator limit cap = .error .forbidden) := by
  refine ⟨?_, ?_, ?_⟩
  · intro hadm
    exact ⟨by simp [member_list, hadm], by simp [member_patch, hadm],
      by simp [member_delete, hadm]⟩
  · intro hrw
    have hadm := admin_false_of_authorize_false st caller.id col _ hrw
    exact ⟨by simp [member_patch, hadm], by simp [member_delete, hadm]⟩
  · intro hro
    have hadm := admin_false_of_authorize_false st caller.id col _ hro
    simp [member_list, hadm]

/-- Concrete instantiation of the gate theorem: a caller with no membership
and no ownership is refused by all three admin-gated operations. -/
theorem member_gates_forbidden_witness :
    member_list exState exCarol exCol none 50 50 = .error .forbidden ∧
      member_patch exState exCarol exCol ['b', 'o', 'b']
        { accessLevel := .readOnly } = .error .forbidden ∧
      member_delete exState exCarol exCol ['b', 'o', 'b'] =
        .error .forbidden :=
  (member_gates_forbidden exState exCarol exCol ['b', 'o', 'b']
    { accessLevel := .readOnly } none 50 50).1 (by rfl)

/-- Claim C5: in the member lookup path, a username that matches no user at
all and a username whose user has no membership in the given collection
produce the identical NotFound outcome, so the two cases cannot be told
apart. -/
theorem get_member_privacy (st : ServerState) (col : Collection)
    (u₁ u₂ : Username)
    (h1 : ∀ x ∈ st.members, x.collectionId = col.id →
      iexact x.user.username u₁ = false)
    (h2 : ∀ x ∈ st.members, x.collectionId = col.id →
      iexact x.user.username u₂ = false) :
    get_member st col u₁ = .error .notFound ∧
      get_member st col u₁ = get_member st col u₂ := by
  have hk : ∀ u : Username, (∀ x ∈ st.members, x.collectionId = col.id →
      iexact x.user.username u = false) →
      get_member st col u = .error .notFound := by
    intro u hu
    unfold get_member get_object_or_404
    have hnone : (get_queryset st col).find?
        (fun m => iexact m.user.username u) = none := by
      rw [List.find?_eq_none]
      intro x hx
      unfold get_queryset at hx
      have hx2 := List.mem_filter.mp hx
      have hcol : x.collectionId = col.id := by simpa using hx2.2
      simp [hu x hx2.1 hcol]
    rw [hnone]
  refine ⟨hk u₁ h1, ?_⟩
  rw [hk u₁ h1, hk u₂ h2]

/-- Concrete instantiation of the lookup privacy theorem: a username nobody
holds and the username of a user outside the collection give the same
NotFound result. -/
theorem get_member_privacy_witness :
    get_member exState exCol ['z'] = .error .notFound ∧
      get_member exState exCol ['z'] = get_member exState exCol ['c'] :=
  get_member_privacy exState exCol ['z'] ['c'] (by decide) (by decide)

end Etebase

namespace Etebase

/-- Claim C3: after member_delete revokes a member, that user's membership
record ceases to exist: no record for the user remains in the collection,
authorize at ReadOnly denies the user (who is not the collection owner), and
no subsequent member listing of the collection, with any cursor, contains the
user's name. -/
theorem member_delete_removes (st : ServerState) (caller : UserRec)
    (col : Collection) (username : Username) (m : CollectionMember)
    (st' : ServerState) (caller2 : UserRec) (iterator : Option Nat)
    (limit cap : Nat) (resp : MemberListResponse)
    (hpair : ∀ x ∈ st.members, ∀ y ∈ st.members,
      x.user.id = y.user.id → x.collectionId = y.collectionId → x = y)
    (husr : ∀ x ∈ st.members, x.collectionId = col.id →
      x.user.username = m.user.username → x.user.id = m.user.id)
    (hm : get_member st col username = .ok m)
    (hdel : member_delete st caller col username = .ok st')
    (hlist : member_list st' caller2 col iterator limit cap = .ok resp) :
    (∀ x ∈ st'.members, x.collectionId = col.id → x.user.id ≠ m.user.id) ∧
      (m.user.id ≠ col.ownerId →
        authorize st' m.user.id col .readOnly = false) ∧
      (∀ x ∈ resp.data, x.username ≠ m.user.username) := by
  have hst : st' = revoke st m := by
    unfold member_delete at hdel
    split_ifs at hdel
    simp only [hm] at hdel
    injection hdel with hdel
    exact hdel.symm
  subst hst
  obtain ⟨hmem, hmcol, _⟩ := get_member_mem hm
  have hgone : ∀ x ∈ (revoke st m).members,
      x ∈ st.members ∧ x.id ≠ m.id := by
    intro x hx
    unfold revoke at hx
    have hx2 := List.mem_filter.mp hx
    exact ⟨hx2.1, by simpa using hx2.2⟩
  have part1 : ∀ x ∈ (revoke st m).members, x.collectionId = col.id →
      x.user.id ≠ m.user.id := by
    intro x hx hxcol huid
    obtain ⟨hxin, hxid⟩ := hgone x hx
    have hxm := hpair x hxin m hmem huid (by rw [hxcol, hmcol])
    exact hxid (by rw [hxm])
  have part2 : m.user.id ≠ col.ownerId →
      authorize (revoke st m) m.user.id col .readOnly = false := by
    intro hown
    have h1 : (col.ownerId == m.user.id) = false :=
      beq_eq_false_iff_ne.mpr (Ne.symm hown)
    have h2 : (revoke st m).members.any (fun x =>
        x.collectionId == col.id && x.user.id == m.user.id &&
          decide (AccessLevels.readOnly.priv ≤ x.accessLevel.priv)) =
        false := by
      rw [List.any_eq_false]
      intro x hx hcontra
      rw [Bool.and_eq_true, Bool.and_eq_true] at hcontra
      obtain ⟨⟨ha, hb⟩, _⟩ := hcontra
      exact part1 x hx (beq_iff_eq.mp ha) (beq_iff_eq.mp hb)
    unfold authorize
    rw [h1, h2]
    rfl
  have hresp : resp.data = (page_items iterator limit cap
      (order_by_id (get_queryset (revoke st m) col))).map
        CollectionMemberOut.from_orm := by
    simp only [member_list, filter_by_stoken_and_limit] at hlist
    split_ifs at hlist
    injection hlist with hlist
    rw [← hlist]
  refine ⟨part1, part2, ?_⟩
  intro x hx hxname
  rw [hresp] at hx
  obtain ⟨r, hr, hrx⟩ := List.mem_map.mp hx
  have hrq := (mem_page_items hr).1
  rw [mem_order_by_id] at hrq
  unfold get_queryset at hrq
  have hr2 := List.mem_filter.mp hrq
  have hrcol : r.collectionId = col.id := by simpa using hr2.2
  obtain ⟨hrin, hrid⟩ := hgone r hr2.1
  have hxu : x.username = r.user.username := by
    rw [← hrx]
    rfl
  have hru : r.user.username = m.user.username := by
    rw [← hxu]
    exact hxname
  have huid : r.user.id = m.user.id := husr r hrin hrcol hru
  exact part1 r hr2.1 hrcol huid

def exStateDeleted : ServerState := { members := [exMemA], ledger := 5 }

/-- Concrete instantiation of the revocation theorem: after deleting the
member, authorization at ReadOnly is denied for the removed user. -/
theorem member_delete_removes_witness :
    authorize exStateDeleted 2 exCol .readOnly = false :=
  (member_delete_removes exState exAlice exCol ['b', 'o', 'b'] exMemB
    exStateDeleted exAlice none 50 50
    { data := [{ username := ['a'], accessLevel := .admin }],
      iterator := some 1, done := true }
    (by decide) (by decide) (by rfl) (by rfl) (by rfl)).2.1 (by decide)

def exColBob : Collection := { id := 11, ownerId := 2 }

/-- Claim C7: member_leave is gated only by ReadOnly with no collection-admin
check: any member, regardless of level, may remove their own membership; the
call revokes exactly the caller's own record, and when the gate passes but the
caller has no membership in the collection the outcome is NotFound. -/
theorem member_leave_spec (st : ServerState) (caller : UserRec)
    (col : Collection) (m : CollectionMember) :
    (m ∈ st.members → m.collectionId = col.id → m.user.id = caller.id →
      (∀ x ∈ st.members, ∀ y ∈ st.members, x.user.id = y.user.id →
        x.collectionId = y.collectionId → x = y) →
      member_leave st caller col = .ok (revoke st m) ∧
        (∀ x ∈ (revoke st m).members, x ∈ st.members ∧ x.id ≠ m.id) ∧
        (∀ x ∈ st.members, x.id ≠ m.id → x ∈ (revoke st m).members)) ∧
    (authorize st caller.id col .readOnly = true →
      (∀ x ∈ st.members, x.collectionId = col.id →
        x.user.id ≠ caller.id) →
      member_leave st caller col = .error .notFound) := by
  constructor
  · intro hmem hcol huid hpair
    have hauth : authorize st caller.id col .readOnly = true := by
      simp only [authorize, Bool.or_eq_true, List.any_eq_true,
        Bool.and_eq_true, beq_iff_eq, decide_eq_true_eq]
      exact Or.inr ⟨m, hmem, ⟨hcol, huid⟩, Nat.zero_le _⟩
    have hq : m ∈ get_queryset st col := by
      unfold get_queryset
      exact List.mem_filter.mpr ⟨hmem, by simp [hcol]⟩
    cases hfind : (get_queryset st col).find?
        (fun x => x.user.id == caller.id) with
    | none =>
      exfalso
      rw [List.find?_eq_none] at hfind
      exact hfind m hq (by simp [huid])
    | some obj =>
      have hobj_mem := List.mem_of_find?_eq_some hfind
      have hobj_p := List.find?_some hfind
      unfold get_queryset at hobj_mem
      have hobj2 := List.mem_filter.mp hobj_mem
      have hobjcol : obj.collectionId = col.id := by simpa using hobj2.2
      have hobjuid : obj.user.id = caller.id := by simpa using hobj_p
      have hobj_eq : obj = m :=
        hpair obj hobj2.1 m hmem (by rw [hobjuid, huid])
          (by rw [hobjcol, hcol])
      have hcall : member_leave st caller col = .ok (revoke st obj) := by
        unfold member_leave get_object_or_404
        rw [hauth, hfind]
        simp
      rw [hobj_eq] at hcall
      refine ⟨hcall, ?_, ?_⟩
      · intro x hx
        unfold revoke at hx
        have hx2 := List.mem_filter.mp hx
        exact ⟨hx2.1, by simpa using hx2.2⟩
      · intro x hx hxid
        unfold revoke
        exact List.mem_filter.mpr ⟨hx, by simp [hxid]⟩
  · intro hauth hno
    unfold member_leave get_object_or_404
    rw [hauth]
    have hnone : (get_queryset st col).find?
        (fun x => x.user.id == caller.id) = none := by
      rw [List.find?_eq_none]
      intro x hx hc
      unfold get_queryset at hx
      have hx2 := List.mem_filter.mp hx
      have hxcol : x.collectionId = col.id := by simpa using hx2.2
      exact hno x hx2.1 hxcol (by simpa using hc)
    rw [hnone]
    simp
end Etebase

namespace Etebase

/-- Concrete instantiation of the leave theorem: a ReadWrite (non-admin)
member removes their own membership, and a caller passing the gate with no
membership record receives NotFound. -/
theorem member_leave_spec_witness :
    member_leave exState exBob exCol = .ok (revoke exState exMemB) ∧
      member_leave exState exBob exColBob = .error .notFound :=
  ⟨((member_leave_spec exState exBob exCol exMemB).1 (by decide) (by rfl)
      (by rfl) (by decide)).1,
   (member_leave_spec exState exBob exColBob exMemB).2 (by rfl) (by decide)⟩

/-- Claim C9: usernames are case-insensitive identity keys: member lookup and
user lookup by natural key return identical results for query strings that
agree up to case, and a user stored under the normalized (lowercased)
username is found by lookup with any case variant of the raw username. -/
theorem username_case_insensitive (st : ServerState) (col : Collection)
    (users : List UserRec) (q₁ q₂ raw : Username) (u : UserRec) :
    (strLower q₁ = strLower q₂ →
      get_member st col q₁ = get_member st col q₂ ∧
        get_by_natural_key users q₁ = get_by_natural_key users q₂) ∧
    (u ∈ users → u.username = normalize_username raw →
      strLower q₁ = strLower raw →
      (get_by_natural_key users q₁).isSome = true) := by
  constructor
  · intro hq
    have hp : (fun m : CollectionMember => iexact m.user.username q₁) =
        (fun m => iexact m.user.username q₂) := by
      funext m
      simp [iexact, hq]
    have hp2 : (fun v : UserRec => iexact v.username q₁) =
        (fun v => iexact v.username q₂) := by
      funext v
      simp [iexact, hq]
    constructor
    · unfold get_member get_object_or_404
      rw [hp]
    · unfold get_by_natural_key
      rw [hp2]
  · intro hu hnorm hq
    unfold get_by_natural_key
    refine List.find?_isSome.mpr ⟨u, hu, ?_⟩
    unfold iexact
    rw [hnorm]
    unfold normalize_username
    simp [strLower_idem, hq]

def exUserStored : UserRec := { id := 5, username := ['b', 'o', 'b'] }

/-- Concrete instantiation of the case-insensitivity theorem. -/
theorem username_case_insensitive_witness :
    (get_member exState exCol ['B', 'O', 'B'] =
        get_member exState exCol ['b', 'o', 'b'] ∧
      get_by_natural_key [exUserStored] ['B', 'O', 'B'] =
        get_by_natural_key [exUserStored] ['b', 'o', 'b']) ∧
      (get_by_natural_key [exUserStored] ['B', 'O', 'B']).isSome = true :=
  ⟨(username_case_insensitive exState exCol [exUserStored] ['B', 'O', 'B']
      ['b', 'o', 'b'] ['B', 'o', 'b'] exUserStored).1 (by decide),
   (username_case_insensitive exState exCol [exUserStored] ['B', 'O', 'B']
      ['b', 'o', 'b'] ['B', 'o', 'b'] exUserStored).2 (by decide) (by decide)
      (by decide)⟩

end Etebase
